import Mathlib

/-!
# gorethink: sequence transformation terms (`query_transformation.go`)

A shallow embedding of the chained query operations of `query_transformation.go`
(`Map`, `WithFields`, `ConcatMap`, `OrderBy`, `Desc`, `Asc`, `Skip`, `Limit`,
`Slice`, `Nth`, `IndexesOf`, `IsEmpty`, `Union`, `Sample`) together with the two
option bundles `OrderByOpts` and `SliceOpts`.

The file calls five functions of the package that live in other files
(`funcWrap`, `funcWrapArgs`, `newRqlTerm`, `newRqlTermFromPrevVal`, `optArgsToMap`)
and uses the `Term` type and the `ql2` operation tags.  The operations below take
`funcWrap` and the two builders as a `Helpers` record, so that the theorems about
the operations hold whatever these helpers compute; a model of the helpers that
follows the specification is given as well and is used wherever a statement is
about what the helpers return.
-/

namespace Gorethink

/-! ## Data model -/

/-- Operation tags of the `ql2` package that occur in `query_transformation.go`,
and the tags of the three leaf/function node kinds of the specification. -/
inductive TermType where
  | DATUM
  | VAR
  | FUNC
  | GET_FIELD
  | MAP
  | WITH_FIELDS
  | CONCATMAP
  | ORDERBY
  | DESC
  | ASC
  | SKIP
  | LIMIT
  | SLICE
  | NTH
  | INDEXES_OF
  | IS_EMPTY
  | UNION
  | SAMPLE
  deriving DecidableEq, Repr

mutual
/-- A Go value of type `interface{}` as it can reach the operations of this file:
`nil`, scalars, ordered sequences, string-keyed mappings, a native callable
(its declared parameter count and its identity), an already built `Term`, the
two option bundles declared in the file passed by value (`OrderByOpts{Index}`,
`SliceOpts{LeftBound, RightBound}`), and a pointer to a value. -/
inductive Value where
  | nil
  | bool (b : Bool)
  | num (n : Int)
  | str (s : String)
  | list (xs : List Value)
  | map (kvs : List (String × Value))
  | func (arity : Nat) (id : Nat)
  | term (t : Term)
  | orderByOpts (Index : Value)
  | sliceOpts (LeftBound : Value) (RightBound : Value)
  | ptr (target : Value)

/-- Modelled from the spec: the `Term` type is declared outside this file.  §3 of
the specification gives the node kinds: a Literal Node wrapping a value, a
bound-variable reference, a Function Node (bound-variable identifiers and a body),
and an operation node (diagnostic name, root/chained flag, operation tag, ordered
children, options mapping). -/
inductive Term where
  | literal (v : Value)
  | var (id : Nat)
  | func (vars : List Nat) (body : Term)
  | op (name : String) (rootTerm : Bool) (termType : TermType)
      (args : List Term) (optArgs : List (String × Term))
end

/-- The field `termType` of a `Term`, read by `OrderBy`. -/
def Term.termType : Term → TermType
  | .literal _ => .DATUM
  | .var _ => .VAR
  | .func _ _ => .FUNC
  | .op _ _ tag _ _ => tag

/-- The ordered children of a node. -/
def Term.args : Term → List Term
  | .op _ _ _ args _ => args
  | _ => []

/-- The options mapping of a node. -/
def Term.optArgs : Term → List (String × Term)
  | .op _ _ _ _ optArgs => optArgs
  | _ => []

/-- A Go `map[string]interface{}`: keys are unique, order carries no meaning. -/
abbrev OptMap := List (String × Value)

/-- The ordering options bundle (`type OrderByOpts struct`). -/
structure OrderByOpts where
  Index : Value

/-- The bounds options bundle (`type SliceOpts struct`). -/
structure SliceOpts where
  LeftBound : Value
  RightBound : Value

/-! ## Helpers declared outside `query_transformation.go` -/

/-- The allocator of bound-variable identifiers: the next identifier to issue. -/
abbrev VarAlloc := Nat

/-- The three helper functions the operations call and whose bodies lie outside
this file.  `funcWrap` may issue bound-variable identifiers, so it runs on the
allocator state; the builders are allocation-only.  The result type `β` of the
builders is `Term` in the program; taking it as a parameter lets a statement
speak about what is handed to the builder. -/
structure Helpers (β : Type) where
  funcWrap : Value → VarAlloc → Term × VarAlloc
  newRqlTerm : String → TermType → List Value → OptMap → β
  newRqlTermFromPrevVal : Term → String → TermType → List Value → OptMap → β

/-- Modelled from the spec: `funcWrapArgs` is declared outside this file; §4.2
`NormalizeArgs` is `NormalizeOne` applied element-wise, first element first. -/
def funcWrapArgs (fw : Value → VarAlloc → Term × VarAlloc) :
    List Value → VarAlloc → List Value × VarAlloc
  | [], s => ([], s)
  | arg :: rest, s =>
      let r := fw arg s
      let rs := funcWrapArgs fw rest r.2
      (Value.term r.1 :: rs.1, rs.2)

/-- One declared field of an options bundle: its wire-facing name, whether the
tag carries `omitempty`, and its current value. -/
structure OptField where
  name : String
  omitempty : Bool
  value : Value

/-- The unset sentinel of a field of static type `interface{}`. -/
def Value.isNil : Value → Bool
  | .nil => true
  | _ => false

/-- Modelled from the spec: `optArgsToMap` is declared outside this file; §4.3
walks the declared fields in declaration order, omits a field that holds its
unset sentinel and inserts every other field under its wire-facing name.  The
values are left as they are: normalising them is what the builder does with the
mapping it is handed. -/
def optArgsToMap (fields : List OptField) : OptMap :=
  (fields.filter (fun f => !(f.omitempty && f.value.isNil))).map (fun f => (f.name, f.value))

/-- Modelled from the spec: §4.2 args-only mode, applied by the builders to what
they are handed: a node passes through, any other value is wrapped as a Literal
Node; a callable is not invoked. -/
def normalizeArgsOnly : Value → Term
  | .term t => t
  | v => .literal v

/-- Modelled from the spec: `newRqlTerm` is declared outside this file; §4.1
`BuildRoot(name, tag, args, opts)` builds a node with no implicit predecessor. -/
def newRqlTerm (name : String) (termType : TermType) (args : List Value) (optArgs : OptMap) :
    Term :=
  .op name true termType (args.map normalizeArgsOnly)
    (optArgs.map (fun kv => (kv.1, normalizeArgsOnly kv.2)))

/-- Modelled from the spec: `newRqlTermFromPrevVal` is declared outside this file;
§4.1 `BuildChained(prev, name, tag, args, opts)` builds a node whose first
argument is `prev`, followed by `args`. -/
def newRqlTermFromPrevVal (prevVal : Term) (name : String) (termType : TermType)
    (args : List Value) (optArgs : OptMap) : Term :=
  .op name false termType (prevVal :: args.map normalizeArgsOnly)
    (optArgs.map (fun kv => (kv.1, normalizeArgsOnly kv.2)))

mutual
/-- Modelled from the spec: `funcWrap` is declared outside this file; §4.2
`NormalizeOne` with function-lifting, in priority order: (1) a node passes
through; (2) a native callable of `arity` parameters gets `arity` fresh
identifiers, is invoked once on the matching variable references and becomes a
Function Node; a bare field name is an implicit single-parameter accessor (the
rule §4.2 states for the key selectors of the ordering entry, which reaches it
through this function only) and becomes a Function Node on a fresh variable;
(3) any other value becomes a Literal Node, containers being normalised
element-wise and value-wise.  `invoke` is the table of native callables, by
identity; a callable may itself build terms, so it runs on the allocator too. -/
def funcWrap (invoke : Nat → List Term → VarAlloc → Term × VarAlloc) :
    Value → VarAlloc → Term × VarAlloc
  | .term t, s => (t, s)
  | .func arity id, s =>
      let vars := List.range' s arity
      let r := invoke id (vars.map Term.var) (s + arity)
      (Term.func vars r.1, r.2)
  | .str name, s =>
      (Term.func [s] (newRqlTermFromPrevVal (Term.var s) "Field" .GET_FIELD [Value.str name] []),
        s + 1)
  | .list xs, s =>
      let r := funcWrapList invoke xs s
      (Term.literal (Value.list r.1), r.2)
  | .map kvs, s =>
      let r := funcWrapMap invoke kvs s
      (Term.literal (Value.map r.1), r.2)
  | .nil, s => (Term.literal Value.nil, s)
  | .bool b, s => (Term.literal (Value.bool b), s)
  | .num n, s => (Term.literal (Value.num n), s)
  | .orderByOpts i, s => (Term.literal (Value.orderByOpts i), s)
  | .sliceOpts l r, s => (Term.literal (Value.sliceOpts l r), s)
  | .ptr v, s => (Term.literal (Value.ptr v), s)

/-- The elements of an ordered sequence, normalised first to last. -/
def funcWrapList (invoke : Nat → List Term → VarAlloc → Term × VarAlloc) :
    List Value → VarAlloc → List Value × VarAlloc
  | [], s => ([], s)
  | x :: xs, s =>
      let r := funcWrap invoke x s
      let rs := funcWrapList invoke xs r.2
      (Value.term r.1 :: rs.1, rs.2)

/-- The values of a mapping, normalised entry by entry; keys are kept. -/
def funcWrapMap (invoke : Nat → List Term → VarAlloc → Term × VarAlloc) :
    List (String × Value) → VarAlloc → List (String × Value) × VarAlloc
  | [], s => ([], s)
  | (k, v) :: kvs, s =>
      let r := funcWrap invoke v s
      let rs := funcWrapMap invoke kvs r.2
      ((k, Value.term r.1) :: rs.1, rs.2)
end

/-- The specified builders next to an arbitrary `funcWrap`. -/
def buildersWith (fw : Value → VarAlloc → Term × VarAlloc) : Helpers Term where
  funcWrap := fw
  newRqlTerm := newRqlTerm
  newRqlTermFromPrevVal := newRqlTermFromPrevVal

/-- What a builder is handed: the predecessor (none for a root term), the
diagnostic name, the operation tag, the positional arguments and the options. -/
structure BuilderCall where
  prevVal : Option Term
  name : String
  termType : TermType
  args : List Value
  optArgs : OptMap

/-- Helpers whose builders only record their own arguments. -/
def recording (fw : Value → VarAlloc → Term × VarAlloc) : Helpers BuilderCall where
  funcWrap := fw
  newRqlTerm := fun name termType args optArgs => ⟨none, name, termType, args, optArgs⟩
  newRqlTermFromPrevVal := fun prevVal name termType args optArgs =>
    ⟨some prevVal, name, termType, args, optArgs⟩

/-! ## The operations of `query_transformation.go`

Every operation runs on the allocator state `s` and returns the state it leaves. -/

variable {β : Type}

/-- Source: `func (t Term) Map(args ...interface{}) Term` -/
def Term.Map (h : Helpers β) (t : Term) (args : List Value) (s : VarAlloc) : β × VarAlloc :=
  let r := funcWrapArgs h.funcWrap args s
  (h.newRqlTermFromPrevVal t "Map" .MAP r.1 [], r.2)

/-- Source: `func (t Term) WithFields(args ...interface{}) Term` -/
def Term.WithFields (h : Helpers β) (t : Term) (args : List Value) (s : VarAlloc) :
    β × VarAlloc :=
  (h.newRqlTermFromPrevVal t "WithFields" .WITH_FIELDS args [], s)

/-- Source: `func (t Term) ConcatMap(args ...interface{}) Term` -/
def Term.ConcatMap (h : Helpers β) (t : Term) (args : List Value) (s : VarAlloc) :
    β × VarAlloc :=
  let r := funcWrapArgs h.funcWrap args s
  (h.newRqlTermFromPrevVal t "ConcatMap" .CONCATMAP r.1 [], r.2)

/-- Source: `func (o *OrderByOpts) toMap() map[string]interface{}`; the field carries the
tag `gorethink:"index,omitempty"`. -/
def OrderByOpts.toMap (o : OrderByOpts) : OptMap :=
  optArgsToMap [⟨"index", true, o.Index⟩]

/-- The condition `ok && (t.termType == p.Term_DESC || t.termType == p.Term_ASC)`
of the loop of `OrderBy`, where `t, ok := arg.(Term)`. -/
def isOrderMarker : Value → Bool
  | .term t => t.termType == .DESC || t.termType == .ASC
  | _ => false

/-- The loop `for k, arg := range args` of `OrderBy`: element `k` is overwritten
with `funcWrap(arg)` unless the condition above holds for it.  Returns the
sequence after the loop and the allocator state. -/
def orderByLoop (fw : Value → VarAlloc → Term × VarAlloc) :
    List Value → VarAlloc → List Value × VarAlloc
  | [], s => ([], s)
  | arg :: rest, s =>
      if isOrderMarker arg then
        let rs := orderByLoop fw rest s
        (arg :: rs.1, rs.2)
      else
        let r := fw arg s
        let rs := orderByLoop fw rest r.2
        (Value.term r.1 :: rs.1, rs.2)

/-- What a call of `OrderBy` leaves: the term it returns, the contents of the
argument sequence it was called on (the loop writes into the caller's sequence),
and the allocator state. -/
structure OrderByOut (β : Type) where
  term : β
  args : List Value
  alloc : VarAlloc

/-- Source: `func (t Term) OrderBy(args ...interface{}) Term` -/
def Term.OrderBy (h : Helpers β) (t : Term) (args : List Value) (s : VarAlloc) :
    OrderByOut β :=
  -- Look for options map
  match args.getLast? with
  | some (Value.orderByOpts index) =>
      let possibleOpts : OrderByOpts := ⟨index⟩
      let opts := possibleOpts.toMap
      let r := orderByLoop h.funcWrap args.dropLast s
      ⟨h.newRqlTermFromPrevVal t "OrderBy" .ORDERBY r.1 opts,
        r.1 ++ [Value.orderByOpts index], r.2⟩
  | _ =>
      let r := orderByLoop h.funcWrap args s
      ⟨h.newRqlTermFromPrevVal t "OrderBy" .ORDERBY r.1 [], r.1, r.2⟩

/-- Source: `func Desc(args ...interface{}) Term` -/
def Desc (h : Helpers β) (args : List Value) (s : VarAlloc) : β × VarAlloc :=
  let r := funcWrapArgs h.funcWrap args s
  (h.newRqlTerm "Desc" .DESC r.1 [], r.2)

/-- Source: `func Asc(args ...interface{}) Term` -/
def Asc (h : Helpers β) (args : List Value) (s : VarAlloc) : β × VarAlloc :=
  let r := funcWrapArgs h.funcWrap args s
  (h.newRqlTerm "Asc" .ASC r.1 [], r.2)

/-- Source: `func (t Term) Skip(args ...interface{}) Term` -/
def Term.Skip (h : Helpers β) (t : Term) (args : List Value) (s : VarAlloc) : β × VarAlloc :=
  (h.newRqlTermFromPrevVal t "Skip" .SKIP args [], s)

/-- Source: `func (t Term) Limit(args ...interface{}) Term` -/
def Term.Limit (h : Helpers β) (t : Term) (args : List Value) (s : VarAlloc) : β × VarAlloc :=
  (h.newRqlTermFromPrevVal t "Limit" .LIMIT args [], s)

/-- Source: `func (o *SliceOpts) toMap() map[string]interface{}`; the fields carry the
tags `gorethink:"left_bound,omitempty"` and `gorethink:"right_bound,omitempty"`. -/
def SliceOpts.toMap (o : SliceOpts) : OptMap :=
  optArgsToMap [⟨"left_bound", true, o.LeftBound⟩, ⟨"right_bound", true, o.RightBound⟩]

/-- Source: `func (t Term) Slice(args ...interface{}) Term` -/
def Term.Slice (h : Helpers β) (t : Term) (args : List Value) (s : VarAlloc) : β × VarAlloc :=
  -- Look for options map
  match args.getLast? with
  | some (Value.sliceOpts leftBound rightBound) =>
      let possibleOpts : SliceOpts := ⟨leftBound, rightBound⟩
      let opts := possibleOpts.toMap
      (h.newRqlTermFromPrevVal t "Slice" .SLICE args.dropLast opts, s)
  | _ =>
      (h.newRqlTermFromPrevVal t "Slice" .SLICE args [], s)

/-- Source: `func (t Term) Nth(args ...interface{}) Term` -/
def Term.Nth (h : Helpers β) (t : Term) (args : List Value) (s : VarAlloc) : β × VarAlloc :=
  (h.newRqlTermFromPrevVal t "Nth" .NTH args [], s)

/-- Source: `func (t Term) IndexesOf(args ...interface{}) Term` -/
def Term.IndexesOf (h : Helpers β) (t : Term) (args : List Value) (s : VarAlloc) :
    β × VarAlloc :=
  let r := funcWrapArgs h.funcWrap args s
  (h.newRqlTermFromPrevVal t "IndexesOf" .INDEXES_OF r.1 [], r.2)

/-- Source: `func (t Term) IsEmpty(args ...interface{}) Term` -/
def Term.IsEmpty (h : Helpers β) (t : Term) (args : List Value) (s : VarAlloc) :
    β × VarAlloc :=
  (h.newRqlTermFromPrevVal t "IsEmpty" .IS_EMPTY args [], s)

/-- Source: `func (t Term) Union(args ...interface{}) Term` -/
def Term.Union (h : Helpers β) (t : Term) (args : List Value) (s : VarAlloc) : β × VarAlloc :=
  (h.newRqlTermFromPrevVal t "Union" .UNION args [], s)

/-- Source: `func (t Term) Sample(args ...interface{}) Term` -/
def Term.Sample (h : Helpers β) (t : Term) (args : List Value) (s : VarAlloc) :
    β × VarAlloc :=
  (h.newRqlTermFromPrevVal t "Sample" .SAMPLE args [], s)

/-- A table of native callables in which every callable returns its first
argument; used where a statement is evaluated on concrete input. -/
def identityCallables (_id : Nat) (vs : List Term) (s : VarAlloc) : Term × VarAlloc :=
  (vs.headD (Term.var 0), s)

/-! ## Vocabulary of the statements -/

/-- The positional arguments of a call of `OrderBy`: the argument list without a
final element of type `OrderByOpts`. -/
def orderByPositional (args : List Value) : List Value :=
  match args.getLast? with
  | some (Value.orderByOpts _) => args.dropLast
  | _ => args

/-- The positional arguments of a call of `Slice`: the argument list without a
final element of type `SliceOpts`. -/
def slicePositional (args : List Value) : List Value :=
  match args.getLast? with
  | some (Value.sliceOpts _ _) => args.dropLast
  | _ => args

/-- The allocator state in which `funcWrapArgs` reaches element `k`. -/
def funcWrapArgsAllocAt (fw : Value → VarAlloc → Term × VarAlloc) (args : List Value)
    (s : VarAlloc) (k : Nat) : VarAlloc :=
  (funcWrapArgs fw (args.take k) s).2

/-- The allocator state in which the loop of `OrderBy` reaches element `k`. -/
def orderByAllocAt (fw : Value → VarAlloc → Term × VarAlloc) (args : List Value)
    (s : VarAlloc) (k : Nat) : VarAlloc :=
  (orderByLoop fw (args.take k) s).2

/-- The value the loop of `OrderBy` leaves at a position that held `arg` when the
allocator was in state `s`. -/
def orderByEntry (fw : Value → VarAlloc → Term × VarAlloc) (arg : Value) (s : VarAlloc) :
    Value :=
  if isOrderMarker arg then arg else Value.term (fw arg s).1

/-- The node `node` carries the tag `tag` and its argument list is `t` followed by
`entries`. -/
def IsChained (tag : TermType) (t : Term) (entries : List Term) (node : Term) : Prop :=
  node.termType = tag ∧ node.args = t :: entries

/-- The node `e` is a single-parameter Function Node whose body accesses the field
`name` on its bound variable. -/
def IsFieldAccessor (name : String) (e : Term) : Prop :=
  ∃ x body, e = Term.func [x] body ∧ body.termType = .GET_FIELD ∧
    body.args = [Term.var x, Term.literal (Value.str name)]

/-! ## Auxiliary lemmas -/

theorem funcWrapArgs_length (fw : Value → VarAlloc → Term × VarAlloc) (args : List Value)
    (s : VarAlloc) : (funcWrapArgs fw args s).1.length = args.length := by
  induction args generalizing s with
  | nil => rfl
  | cons a rest ih => simp [funcWrapArgs, ih]

theorem funcWrapArgs_getElem? (fw : Value → VarAlloc → Term × VarAlloc) (args : List Value)
    (s : VarAlloc) (k : Nat) (v : Value) (hv : args[k]? = some v) :
    (funcWrapArgs fw args s).1[k]? =
      some (Value.term (fw v (funcWrapArgsAllocAt fw args s k)).1) := by
  induction args generalizing s k with
  | nil => simp at hv
  | cons a rest ih =>
    cases k with
    | zero =>
      simp at hv
      subst hv
      simp [funcWrapArgs, funcWrapArgsAllocAt]
    | succ k =>
      simp at hv
      simpa [funcWrapArgs, funcWrapArgsAllocAt] using ih (fw a s).2 k hv

theorem orderByLoop_length (fw : Value → VarAlloc → Term × VarAlloc) (args : List Value)
    (s : VarAlloc) : (orderByLoop fw args s).1.length = args.length := by
  induction args generalizing s with
  | nil => rfl
  | cons a rest ih =>
    by_cases hm : isOrderMarker a = true <;> simp [orderByLoop, hm, ih]

theorem orderByLoop_getElem? (fw : Value → VarAlloc → Term × VarAlloc) (args : List Value)
    (s : VarAlloc) (k : Nat) (v : Value) (hv : args[k]? = some v) :
    (orderByLoop fw args s).1[k]? = some (orderByEntry fw v (orderByAllocAt fw args s k)) := by
  induction args generalizing s k with
  | nil => simp at hv
  | cons a rest ih =>
    cases k with
    | zero =>
      simp at hv
      subst hv
      by_cases hm : isOrderMarker a = true <;>
        simp [orderByLoop, orderByAllocAt, orderByEntry, hm]
    | succ k =>
      simp at hv
      by_cases hm : isOrderMarker a = true
      · simpa [orderByLoop, orderByAllocAt, hm] using ih s k hv
      · simpa [orderByLoop, orderByAllocAt, hm] using ih (fw a s).2 k hv

theorem orderBy_of_last_opts (h : Helpers β) (t : Term) (init : List Value) (index : Value)
    (s : VarAlloc) :
    Term.OrderBy h t (init ++ [Value.orderByOpts index]) s =
      ⟨h.newRqlTermFromPrevVal t "OrderBy" .ORDERBY (orderByLoop h.funcWrap init s).1
          (OrderByOpts.mk index).toMap,
        (orderByLoop h.funcWrap init s).1 ++ [Value.orderByOpts index],
        (orderByLoop h.funcWrap init s).2⟩ := by
  simp [Term.OrderBy]

theorem orderBy_of_last_other (h : Helpers β) (t : Term) (args : List Value) (s : VarAlloc)
    (hlast : ∀ index, args.getLast? ≠ some (Value.orderByOpts index)) :
    Term.OrderBy h t args s =
      ⟨h.newRqlTermFromPrevVal t "OrderBy" .ORDERBY (orderByLoop h.funcWrap args s).1 [],
        (orderByLoop h.funcWrap args s).1, (orderByLoop h.funcWrap args s).2⟩ := by
  unfold Term.OrderBy
  split
  · rename_i index heq
    exact absurd heq (hlast index)
  · rfl

theorem slice_of_last_opts (h : Helpers β) (t : Term) (init : List Value)
    (leftBound rightBound : Value) (s : VarAlloc) :
    Term.Slice h t (init ++ [Value.sliceOpts leftBound rightBound]) s =
      (h.newRqlTermFromPrevVal t "Slice" .SLICE init
        (SliceOpts.mk leftBound rightBound).toMap, s) := by
  simp [Term.Slice]

theorem slice_of_last_other (h : Helpers β) (t : Term) (args : List Value) (s : VarAlloc)
    (hlast : ∀ l r, args.getLast? ≠ some (Value.sliceOpts l r)) :
    Term.Slice h t args s = (h.newRqlTermFromPrevVal t "Slice" .SLICE args [], s) := by
  unfold Term.Slice
  split
  · rename_i l r heq
    exact absurd heq (hlast l r)
  · rfl

theorem orderByPositional_of_last_opts (init : List Value) (index : Value) :
    orderByPositional (init ++ [Value.orderByOpts index]) = init := by
  simp [orderByPositional]

theorem orderByPositional_of_last_other (args : List Value)
    (hlast : ∀ index, args.getLast? ≠ some (Value.orderByOpts index)) :
    orderByPositional args = args := by
  unfold orderByPositional
  split
  · rename_i index heq
    exact absurd heq (hlast index)
  · rfl

theorem slicePositional_of_last_opts (init : List Value) (l r : Value) :
    slicePositional (init ++ [Value.sliceOpts l r]) = init := by
  simp [slicePositional]

theorem slicePositional_of_last_other (args : List Value)
    (hlast : ∀ l r, args.getLast? ≠ some (Value.sliceOpts l r)) :
    slicePositional args = args := by
  unfold slicePositional
  split
  · rename_i l r heq
    exact absurd heq (hlast l r)
  · rfl

theorem funcWrapArgs_eq_mapIdx (fw : Value → VarAlloc → Term × VarAlloc) (args : List Value)
    (s : VarAlloc) :
    (funcWrapArgs fw args s).1 =
      args.mapIdx (fun k v => Value.term (fw v (funcWrapArgsAllocAt fw args s k)).1) := by
  symm
  rw [List.mapIdx_eq_iff]
  intro i
  cases hv : args[i]? with
  | none =>
    have hlen : args.length ≤ i := by simpa using hv
    simp [funcWrapArgs_length, hlen]
  | some v => simpa using funcWrapArgs_getElem? fw args s i v hv

theorem orderByLoop_eq_mapIdx (fw : Value → VarAlloc → Term × VarAlloc) (args : List Value)
    (s : VarAlloc) :
    (orderByLoop fw args s).1 =
      args.mapIdx (fun k v => orderByEntry fw v (orderByAllocAt fw args s k)) := by
  symm
  rw [List.mapIdx_eq_iff]
  intro i
  cases hv : args[i]? with
  | none =>
    have hlen : args.length ≤ i := by simpa using hv
    simp [orderByLoop_length, hlen]
  | some v => simpa using orderByLoop_getElem? fw args s i v hv

theorem orderBy_recorded_args (fw : Value → VarAlloc → Term × VarAlloc) (t : Term)
    (args : List Value) (s : VarAlloc) :
    (t.OrderBy (recording fw) args s).term.args =
      (orderByLoop fw (orderByPositional args) s).1 := by
  unfold Term.OrderBy orderByPositional
  split <;> simp_all [recording]

theorem orderBy_builder_factor (h : Helpers β) (t : Term) (args : List Value) (s : VarAlloc) :
    (t.OrderBy h args s).term =
      h.newRqlTermFromPrevVal t "OrderBy" .ORDERBY
        (t.OrderBy (recording h.funcWrap) args s).term.args
        (t.OrderBy (recording h.funcWrap) args s).term.optArgs := by
  unfold Term.OrderBy
  split <;> simp_all [recording]

theorem slice_recorded_args (fw : Value → VarAlloc → Term × VarAlloc) (t : Term)
    (args : List Value) (s : VarAlloc) :
    (t.Slice (recording fw) args s).1.args = slicePositional args := by
  unfold Term.Slice slicePositional
  split <;> simp_all [recording]

theorem slice_builder_factor (h : Helpers β) (t : Term) (args : List Value) (s : VarAlloc) :
    (t.Slice h args s).1 =
      h.newRqlTermFromPrevVal t "Slice" .SLICE
        (t.Slice (recording h.funcWrap) args s).1.args
        (t.Slice (recording h.funcWrap) args s).1.optArgs := by
  unfold Term.Slice
  split <;> simp_all [recording]

theorem map_normalizeArgsOnly_mapIdx_term (f : Nat → Value → Term) (l : List Value) :
    (l.mapIdx (fun k v => Value.term (f k v))).map normalizeArgsOnly = l.mapIdx f := by
  apply List.ext_getElem?
  intro i
  simp [normalizeArgsOnly]
  cases l[i]? <;> simp [normalizeArgsOnly]

theorem isOrderMarker_iff (v : Value) :
    isOrderMarker v = true ↔
      ∃ d, v = Value.term d ∧ (d.termType = .DESC ∨ d.termType = .ASC) := by
  cases v <;> simp [isOrderMarker]

theorem orderByEntry_specFuncWrap (invoke : Nat → List Term → VarAlloc → Term × VarAlloc)
    (v : Value) (s : VarAlloc) :
    orderByEntry (funcWrap invoke) v s = Value.term (funcWrap invoke v s).1 := by
  unfold orderByEntry
  split
  · rename_i hm
    obtain ⟨d, rfl, _⟩ := (isOrderMarker_iff v).1 hm
    simp [funcWrap]
  · rfl

theorem orderByLoop_specFuncWrap (invoke : Nat → List Term → VarAlloc → Term × VarAlloc)
    (args : List Value) (s : VarAlloc) :
    orderByLoop (funcWrap invoke) args s = funcWrapArgs (funcWrap invoke) args s := by
  induction args generalizing s with
  | nil => rfl
  | cons a rest ih =>
    by_cases hm : isOrderMarker a = true
    · obtain ⟨d, rfl, _⟩ := (isOrderMarker_iff a).1 hm
      simp [orderByLoop, funcWrapArgs, hm, ih, funcWrap]
    · simp [orderByLoop, funcWrapArgs, hm, ih]

theorem orderByAllocAt_succ (fw : Value → VarAlloc → Term × VarAlloc) (args : List Value)
    (s : VarAlloc) (k : Nat) (v : Value) (hv : args[k]? = some v) :
    orderByAllocAt fw args s (k + 1) =
      if isOrderMarker v then orderByAllocAt fw args s k
      else (fw v (orderByAllocAt fw args s k)).2 := by
  induction args generalizing s k with
  | nil => simp at hv
  | cons a rest ih =>
    cases k with
    | zero =>
      simp at hv
      subst hv
      by_cases hm : isOrderMarker a = true <;> simp [orderByAllocAt, orderByLoop, hm]
    | succ k =>
      simp at hv
      have h1 := ih s k hv
      have h2 := ih (fw a s).2 k hv
      by_cases hm : isOrderMarker a = true
      · simpa [orderByAllocAt, orderByLoop, hm] using h1
      · simpa [orderByAllocAt, orderByLoop, hm] using h2

theorem orderByPositional_getElem?_term (args : List Value) (k : Nat) (d : Term)
    (hk : args[k]? = some (Value.term d)) :
    (orderByPositional args)[k]? = some (Value.term d) := by
  rcases List.eq_nil_or_concat args with hnil | ⟨init, b, rfl⟩
  · subst hnil
    simp at hk
  · rw [List.concat_eq_append] at hk ⊢
    by_cases hb : ∃ index, b = Value.orderByOpts index
    · obtain ⟨index, rfl⟩ := hb
      rw [orderByPositional_of_last_opts]
      by_cases hlt : k < init.length
      · rw [List.getElem?_append_left hlt] at hk
        exact hk
      · rw [List.getElem?_append_right (by omega)] at hk
        cases hsub : k - init.length with
        | zero => simp [hsub] at hk
        | succ n => simp [hsub] at hk
    · rw [orderByPositional_of_last_other]
      · exact hk
      · intro index hlast
        apply hb
        refine ⟨index, ?_⟩
        simpa using hlast

theorem orderByLoop_append (fw : Value → VarAlloc → Term × VarAlloc) (xs ys : List Value)
    (s : VarAlloc) :
    orderByLoop fw (xs ++ ys) s =
      ((orderByLoop fw xs s).1 ++ (orderByLoop fw ys (orderByLoop fw xs s).2).1,
        (orderByLoop fw ys (orderByLoop fw xs s).2).2) := by
  induction xs generalizing s with
  | nil => rfl
  | cons a rest ih =>
    by_cases hm : isOrderMarker a = true <;> simp [orderByLoop, hm, ih]

theorem orderBy_args_closed (h : Helpers β) (t : Term) (args : List Value) (s : VarAlloc) :
    (t.OrderBy h args s).args =
      (orderByLoop h.funcWrap (orderByPositional args) s).1 ++
        args.drop (orderByPositional args).length := by
  by_cases hlast : ∃ index, args.getLast? = some (Value.orderByOpts index)
  · obtain ⟨index, hidx⟩ := hlast
    have hsplit : args = args.dropLast ++ [Value.orderByOpts index] :=
      (List.dropLast_append_getLast? _ (by simp [hidx])).symm
    rw [hsplit, orderBy_of_last_opts, orderByPositional_of_last_opts]
    simp
  · have hlast2 : ∀ index, args.getLast? ≠ some (Value.orderByOpts index) :=
      fun index hidx => hlast ⟨index, hidx⟩
    rw [orderBy_of_last_other h t args s hlast2, orderByPositional_of_last_other args hlast2]
    simp

/-! ## The argument list of a chained node -/

/-- C1: for every receiver `t`, argument list `args`, allocator state and every
`funcWrap`, each chained operation builds (with the builder of the specification)
a node that carries the operation's own tag and whose argument list is `t`
followed by one entry per positional argument, in the original order: the
argument itself in args-only normal form for `WithFields`, `Skip`, `Limit`,
`Slice`, `Nth`, `IsEmpty`, `Union`, `Sample`; `funcWrap` of the argument for
`Map`, `ConcatMap`, `IndexesOf`; the loop entry for `OrderBy`.  `t.Skip(5)` has
the argument list `[t, Literal(5)]`, and the first argument of the node built by
`OrderBy` is the receiver. -/
theorem chained_node_argument_list (fw : Value → VarAlloc → Term × VarAlloc) (t : Term)
    (args : List Value) (s : VarAlloc) :
    IsChained .MAP t (args.mapIdx (fun k v => (fw v (funcWrapArgsAllocAt fw args s k)).1))
        (t.Map (buildersWith fw) args s).1 ∧
    IsChained .WITH_FIELDS t (args.map normalizeArgsOnly)
        (t.WithFields (buildersWith fw) args s).1 ∧
    IsChained .CONCATMAP t (args.mapIdx (fun k v => (fw v (funcWrapArgsAllocAt fw args s k)).1))
        (t.ConcatMap (buildersWith fw) args s).1 ∧
    IsChained .ORDERBY t
        ((orderByPositional args).mapIdx (fun k v =>
          normalizeArgsOnly (orderByEntry fw v (orderByAllocAt fw (orderByPositional args) s k))))
        (t.OrderBy (buildersWith fw) args s).term ∧
    IsChained .SKIP t (args.map normalizeArgsOnly) (t.Skip (buildersWith fw) args s).1 ∧
    IsChained .LIMIT t (args.map normalizeArgsOnly) (t.Limit (buildersWith fw) args s).1 ∧
    IsChained .SLICE t ((slicePositional args).map normalizeArgsOnly)
        (t.Slice (buildersWith fw) args s).1 ∧
    IsChained .NTH t (args.map normalizeArgsOnly) (t.Nth (buildersWith fw) args s).1 ∧
    IsChained .INDEXES_OF t
        (args.mapIdx (fun k v => (fw v (funcWrapArgsAllocAt fw args s k)).1))
        (t.IndexesOf (buildersWith fw) args s).1 ∧
    IsChained .IS_EMPTY t (args.map normalizeArgsOnly) (t.IsEmpty (buildersWith fw) args s).1 ∧
    IsChained .UNION t (args.map normalizeArgsOnly) (t.Union (buildersWith fw) args s).1 ∧
    IsChained .SAMPLE t (args.map normalizeArgsOnly) (t.Sample (buildersWith fw) args s).1 ∧
    (t.Skip (buildersWith fw) [Value.num 5] s).1.args = [t, Term.literal (Value.num 5)] ∧
    (t.OrderBy (buildersWith fw) args s).term.args.head? = some t := by
  have hlift : ((funcWrapArgs fw args s).1).map normalizeArgsOnly =
      args.mapIdx (fun k v => (fw v (funcWrapArgsAllocAt fw args s k)).1) := by
    rw [funcWrapArgs_eq_mapIdx, map_normalizeArgsOnly_mapIdx_term]
  have hord : (t.OrderBy (buildersWith fw) args s).term.args = t ::
      (orderByPositional args).mapIdx (fun k v =>
        normalizeArgsOnly (orderByEntry fw v (orderByAllocAt fw (orderByPositional args) s k))) := by
    rw [orderBy_builder_factor]
    simp only [buildersWith, newRqlTermFromPrevVal, Term.args]
    rw [orderBy_recorded_args, orderByLoop_eq_mapIdx]
    congr 1
    apply List.ext_getElem?
    intro i
    simp
    rfl
  have hordTag : (t.OrderBy (buildersWith fw) args s).term.termType = .ORDERBY := by
    rw [orderBy_builder_factor]
    rfl
  have hsl : (t.Slice (buildersWith fw) args s).1.args =
      t :: (slicePositional args).map normalizeArgsOnly := by
    rw [slice_builder_factor]
    simp only [buildersWith, newRqlTermFromPrevVal, Term.args]
    rw [slice_recorded_args]
  have hslTag : (t.Slice (buildersWith fw) args s).1.termType = .SLICE := by
    rw [slice_builder_factor]
    rfl
  refine ⟨⟨rfl, ?_⟩, ⟨rfl, rfl⟩, ⟨rfl, ?_⟩, ⟨hordTag, hord⟩, ⟨rfl, rfl⟩, ⟨rfl, rfl⟩,
    ⟨hslTag, hsl⟩, ⟨rfl, rfl⟩, ⟨rfl, ?_⟩, ⟨rfl, rfl⟩, ⟨rfl, rfl⟩, ⟨rfl, rfl⟩, rfl, ?_⟩
  · simp only [Term.Map, buildersWith, newRqlTermFromPrevVal, Term.args, hlift]
  · simp only [Term.ConcatMap, buildersWith, newRqlTermFromPrevVal, Term.args, hlift]
  · simp only [Term.IndexesOf, buildersWith, newRqlTermFromPrevVal, Term.args, hlift]
  · rw [hord]
    rfl

/-! ## The trailing options bundle -/

/-- C2: when the last argument is a value of the operation's own bundle type
(`OrderByOpts` for `OrderBy`, `SliceOpts` for `Slice`), the options handed to the
builder are exactly `toMap` of that bundle and the positional arguments handed to
it are the first `len(args)-1` elements in order: each replaced by its loop entry
in `OrderBy` (`funcWrap` of it, element-wise, with the `funcWrap` of the
specification), unchanged in `Slice`.  The options of the built node are the same
mapping in args-only normal form. -/
theorem trailing_bundle_routed_to_options (fw : Value → VarAlloc → Term × VarAlloc)
    (invoke : Nat → List Term → VarAlloc → Term × VarAlloc) (t : Term) (init : List Value)
    (index leftBound rightBound : Value) (s : VarAlloc) :
    (t.OrderBy (recording fw) (init ++ [Value.orderByOpts index]) s).term.optArgs =
        (OrderByOpts.mk index).toMap ∧
    (t.OrderBy (recording fw) (init ++ [Value.orderByOpts index]) s).term.args =
        init.mapIdx (fun k v => orderByEntry fw v (orderByAllocAt fw init s k)) ∧
    (t.OrderBy (recording (funcWrap invoke)) (init ++ [Value.orderByOpts index]) s).term.args =
        (funcWrapArgs (funcWrap invoke) init s).1 ∧
    (t.Slice (recording fw) (init ++ [Value.sliceOpts leftBound rightBound]) s).1.optArgs =
        (SliceOpts.mk leftBound rightBound).toMap ∧
    (t.Slice (recording fw) (init ++ [Value.sliceOpts leftBound rightBound]) s).1.args = init ∧
    (t.OrderBy (buildersWith fw) (init ++ [Value.orderByOpts index]) s).term.optArgs =
        ((OrderByOpts.mk index).toMap).map (fun kv => (kv.1, normalizeArgsOnly kv.2)) ∧
    (t.Slice (buildersWith fw) (init ++ [Value.sliceOpts leftBound rightBound]) s).1.optArgs =
        ((SliceOpts.mk leftBound rightBound).toMap).map
          (fun kv => (kv.1, normalizeArgsOnly kv.2)) := by
  refine ⟨?_, ?_, ?_, ?_, ?_, ?_, ?_⟩
  · rw [orderBy_of_last_opts]
    rfl
  · rw [orderBy_of_last_opts]
    exact orderByLoop_eq_mapIdx fw init s
  · rw [orderBy_of_last_opts]
    exact congrArg Prod.fst (orderByLoop_specFuncWrap invoke init s)
  · rw [slice_of_last_opts]
    rfl
  · rw [slice_of_last_opts]
    rfl
  · rw [orderBy_of_last_opts]
    rfl
  · rw [slice_of_last_opts]
    rfl

/-! ## Ordering markers -/

/-- C3: for every argument list of `OrderBy` and every position `k` of it, if
`args[k]` is a `Term` tagged `DESC` or `ASC` then the `k`-th positional argument
handed to the builder is that very value and the allocator is not touched for it;
every other positional argument `v` is replaced by `funcWrap(v)`, taken in the
allocator state the loop has reached.  Every result of `Desc` and of `Asc` carries
its tag, and `t.OrderBy(Desc("age"))` hands the builder exactly `[Desc("age")]`. -/
theorem orderBy_marker_passed_verbatim (fw : Value → VarAlloc → Term × VarAlloc) (t : Term)
    (args : List Value) (s : VarAlloc) (k : Nat) :
    (∀ d, args[k]? = some (Value.term d) → (d.termType = .DESC ∨ d.termType = .ASC) →
      (t.OrderBy (recording fw) args s).term.args[k]? = some (Value.term d) ∧
      orderByAllocAt fw (orderByPositional args) s (k + 1) =
        orderByAllocAt fw (orderByPositional args) s k) ∧
    (∀ v, (orderByPositional args)[k]? = some v →
      (¬ ∃ d, v = Value.term d ∧ (d.termType = .DESC ∨ d.termType = .ASC)) →
      (t.OrderBy (recording fw) args s).term.args[k]? =
        some (Value.term (fw v (orderByAllocAt fw (orderByPositional args) s k)).1)) ∧
    (∀ xs s0, (Desc (buildersWith fw) xs s0).1.termType = .DESC ∧
      (Asc (buildersWith fw) xs s0).1.termType = .ASC) ∧
    (∀ s0, (t.OrderBy (recording fw)
        [Value.term (Desc (buildersWith fw) [Value.str "age"] s0).1] s).term.args =
      [Value.term (Desc (buildersWith fw) [Value.str "age"] s0).1]) := by
  refine ⟨?_, ?_, ?_, ?_⟩
  · intro d hk htag
    have hpos := orderByPositional_getElem?_term args k d hk
    have hm : isOrderMarker (Value.term d) = true :=
      (isOrderMarker_iff _).2 ⟨d, rfl, htag⟩
    constructor
    · rw [orderBy_recorded_args, orderByLoop_getElem? fw _ s k _ hpos]
      simp [orderByEntry, hm]
    · rw [orderByAllocAt_succ fw _ s k _ hpos]
      simp [hm]
  · intro v hpos hnot
    have hm : isOrderMarker v = false := by
      cases hb : isOrderMarker v with
      | false => rfl
      | true => exact absurd ((isOrderMarker_iff v).1 hb) hnot
    rw [orderBy_recorded_args, orderByLoop_getElem? fw _ s k _ hpos]
    simp [orderByEntry, hm]
  · intro xs s0
    exact ⟨rfl, rfl⟩
  · intro s0
    rw [orderBy_recorded_args]
    simp [orderByPositional, orderByLoop, isOrderMarker, Desc, buildersWith, newRqlTerm,
      Term.termType]

/-- Witness for C3 at `t.OrderBy(Desc("age"), "name")`: position 0 holds a marker
and is handed on as it is, position 1 holds a bare name and is replaced by
`funcWrap` of it. -/
theorem orderBy_marker_passed_verbatim_witness :
    [Value.term (Desc (buildersWith (funcWrap identityCallables)) [Value.str "age"] 0).1,
        Value.str "name"][0]? =
      some (Value.term (Desc (buildersWith (funcWrap identityCallables)) [Value.str "age"] 0).1) ∧
    (Desc (buildersWith (funcWrap identityCallables)) [Value.str "age"] 0).1.termType = .DESC ∧
    (Term.OrderBy (recording (funcWrap identityCallables)) (Term.var 0)
        [Value.term (Desc (buildersWith (funcWrap identityCallables)) [Value.str "age"] 0).1,
          Value.str "name"] 1).term.args[0]? =
      some (Value.term (Desc (buildersWith (funcWrap identityCallables)) [Value.str "age"] 0).1) ∧
    (Term.OrderBy (recording (funcWrap identityCallables)) (Term.var 0)
        [Value.term (Desc (buildersWith (funcWrap identityCallables)) [Value.str "age"] 0).1,
          Value.str "name"] 1).term.args[1]? =
      some (Value.term (Term.func [1] (Term.op "Field" false .GET_FIELD
        [Term.var 1, Term.literal (Value.str "name")] []))) :=
  ⟨rfl, rfl,
    ((orderBy_marker_passed_verbatim (funcWrap identityCallables) (Term.var 0)
      [Value.term (Desc (buildersWith (funcWrap identityCallables)) [Value.str "age"] 0).1,
        Value.str "name"] 1 0).1 _ rfl (Or.inl rfl)).1,
    (orderBy_marker_passed_verbatim (funcWrap identityCallables) (Term.var 0)
      [Value.term (Desc (buildersWith (funcWrap identityCallables)) [Value.str "age"] 0).1,
        Value.str "name"] 1 1).2.1 (Value.str "name") rfl (by simp)⟩

/-! ## Bare field names -/

/-- C4: with the `funcWrap` and the builder of the specification, `t.OrderBy(name)`
for a bare field name and no options yields a node without options whose argument
list is `t` followed by one explicit argument, and that argument is a
single-parameter Function Node whose body accesses the field `name` on the bound
variable (the variable the allocator issues next); it is not the Literal Node
wrapping `name`. -/
theorem orderBy_bare_name_is_accessor (invoke : Nat → List Term → VarAlloc → Term × VarAlloc)
    (t : Term) (name : String) (s : VarAlloc) :
    (∃ e, (t.OrderBy (buildersWith (funcWrap invoke)) [Value.str name] s).term.args = [t, e] ∧
      IsFieldAccessor name e ∧ e ≠ Term.literal (Value.str name) ∧
      e = Term.func [s] (Term.op "Field" false .GET_FIELD
        [Term.var s, Term.literal (Value.str name)] [])) ∧
    (t.OrderBy (buildersWith (funcWrap invoke)) [Value.str name] s).term.optArgs = [] ∧
    (t.OrderBy (buildersWith (funcWrap invoke)) [Value.str name] s).alloc = s + 1 := by
  refine ⟨⟨_, rfl, ⟨s, _, rfl, rfl, rfl⟩, ?_, rfl⟩, rfl, rfl⟩
  intro hne
  cases hne

/-! ## The options serializer -/

/-- C5: `OrderByOpts.toMap` has the key `index` exactly when `Index` is set, bound
to the value of the field, and no other key; `SliceOpts.toMap` has `left_bound`
exactly when `LeftBound` is set and `right_bound` exactly when `RightBound` is
set, each bound to the value of its field, independently of each other, and no
other key.  `OrderByOpts{Index: "name_idx"}` yields exactly
`{"index": "name_idx"}` (the node built from it carries `Literal("name_idx")`
under `index`), and a bundle with every field unset yields the empty mapping. -/
theorem toMap_present_iff_set (o : OrderByOpts) (b : SliceOpts) (key : String) :
    (o.toMap.lookup key =
      if key = "index" then (if o.Index.isNil then none else some o.Index) else none) ∧
    (b.toMap.lookup key =
      if key = "left_bound" then (if b.LeftBound.isNil then none else some b.LeftBound)
      else if key = "right_bound" then
        (if b.RightBound.isNil then none else some b.RightBound)
      else none) ∧
    (o.Index.isNil = true ↔ o.Index = Value.nil) ∧
    (b.LeftBound.isNil = true ↔ b.LeftBound = Value.nil) ∧
    (b.RightBound.isNil = true ↔ b.RightBound = Value.nil) ∧
    (o.toMap.map Prod.fst).Nodup ∧ (b.toMap.map Prod.fst).Nodup ∧
    (OrderByOpts.mk (Value.str "name_idx")).toMap = [("index", Value.str "name_idx")] ∧
    (∀ (fw : Value → VarAlloc → Term × VarAlloc) (t : Term) (s : VarAlloc),
      (t.OrderBy (buildersWith fw) [Value.orderByOpts (Value.str "name_idx")] s).term.optArgs =
        [("index", Term.literal (Value.str "name_idx"))]) ∧
    (OrderByOpts.mk Value.nil).toMap = [] ∧
    (SliceOpts.mk Value.nil Value.nil).toMap = [] := by
  have hnil : ∀ v : Value, v.isNil = true ↔ v = Value.nil := by
    intro v
    cases v <;> simp [Value.isNil]
  refine ⟨?_, ?_, hnil _, hnil _, hnil _, ?_, ?_, rfl, fun _ _ _ => rfl, rfl, rfl⟩
  · by_cases hk : key = "index"
    · cases hI : o.Index.isNil <;>
        simp [OrderByOpts.toMap, optArgsToMap, List.filter, List.lookup, hI, hk]
    · have hb : (key == "index") = false := by simpa using hk
      cases hI : o.Index.isNil <;>
        simp [OrderByOpts.toMap, optArgsToMap, List.filter, List.lookup, hI, hk, hb]
  · by_cases hk : key = "left_bound"
    · cases hL : b.LeftBound.isNil <;> cases hR : b.RightBound.isNil <;>
        simp [SliceOpts.toMap, optArgsToMap, List.filter, List.lookup, hL, hR, hk]
    · have hb : (key == "left_bound") = false := by simpa using hk
      by_cases hk2 : key = "right_bound"
      · cases hL : b.LeftBound.isNil <;> cases hR : b.RightBound.isNil <;>
          simp [SliceOpts.toMap, optArgsToMap, List.filter, List.lookup, hL, hR, hk2]
      · have hb2 : (key == "right_bound") = false := by simpa using hk2
        cases hL : b.LeftBound.isNil <;> cases hR : b.RightBound.isNil <;>
          simp [SliceOpts.toMap, optArgsToMap, List.filter, List.lookup, hL, hR, hk, hk2,
            hb, hb2]
  · cases hI : o.Index.isNil <;> simp [OrderByOpts.toMap, optArgsToMap, List.filter, hI]
  · cases hL : b.LeftBound.isNil <;> cases hR : b.RightBound.isNil <;>
      simp [SliceOpts.toMap, optArgsToMap, List.filter, hL, hR]

/-! ## Args-only operations -/

/-- C6: for each of `WithFields`, `Skip`, `Limit`, `Slice`, `Nth`, `IsEmpty`,
`Union`, `Sample`, whatever the helpers are: the result is the builder applied to
the positional arguments exactly as given, the allocator state is left as it was
(no identifier is issued, so no callable is probed), and replacing `funcWrap` by
any other function changes nothing.  With the builder of the specification a
native callable among the arguments ends up as the Literal Node wrapping it. -/
theorem args_only_operations_never_lift (h : Helpers β)
    (fw : Value → VarAlloc → Term × VarAlloc) (t : Term) (args : List Value) (s : VarAlloc) :
    (t.WithFields h args s = (h.newRqlTermFromPrevVal t "WithFields" .WITH_FIELDS args [], s) ∧
      t.Skip h args s = (h.newRqlTermFromPrevVal t "Skip" .SKIP args [], s) ∧
      t.Limit h args s = (h.newRqlTermFromPrevVal t "Limit" .LIMIT args [], s) ∧
      t.Slice h args s = (h.newRqlTermFromPrevVal t "Slice" .SLICE (slicePositional args)
        (t.Slice (recording fw) args s).1.optArgs, s) ∧
      t.Nth h args s = (h.newRqlTermFromPrevVal t "Nth" .NTH args [], s) ∧
      t.IsEmpty h args s = (h.newRqlTermFromPrevVal t "IsEmpty" .IS_EMPTY args [], s) ∧
      t.Union h args s = (h.newRqlTermFromPrevVal t "Union" .UNION args [], s) ∧
      t.Sample h args s = (h.newRqlTermFromPrevVal t "Sample" .SAMPLE args [], s)) ∧
    (t.WithFields { h with funcWrap := fw } args s = t.WithFields h args s ∧
      t.Skip { h with funcWrap := fw } args s = t.Skip h args s ∧
      t.Limit { h with funcWrap := fw } args s = t.Limit h args s ∧
      t.Slice { h with funcWrap := fw } args s = t.Slice h args s ∧
      t.Nth { h with funcWrap := fw } args s = t.Nth h args s ∧
      t.IsEmpty { h with funcWrap := fw } args s = t.IsEmpty h args s ∧
      t.Union { h with funcWrap := fw } args s = t.Union h args s ∧
      t.Sample { h with funcWrap := fw } args s = t.Sample h args s) ∧
    (∀ arity id, normalizeArgsOnly (Value.func arity id) = Term.literal (Value.func arity id)) ∧
    (∀ arity id, t.Skip (buildersWith fw) [Value.func arity id] s =
      (Term.op "Skip" false .SKIP [t, Term.literal (Value.func arity id)] [], s)) := by
  have hslice : ∀ g : Helpers β, t.Slice g args s =
      (g.newRqlTermFromPrevVal t "Slice" .SLICE (slicePositional args)
        (t.Slice (recording fw) args s).1.optArgs, s) := by
    intro g
    unfold Term.Slice slicePositional
    split <;> simp_all [recording]
  refine ⟨⟨rfl, rfl, rfl, hslice h, rfl, rfl, rfl, rfl⟩,
    ⟨rfl, rfl, rfl, ?_, rfl, rfl, rfl, rfl⟩, fun _ _ => rfl, fun _ _ => rfl⟩
  rw [hslice, hslice h]

/-! ## An empty bundle -/

/-- C7: when the last element of `args` is not an `OrderByOpts` value,
`t.OrderBy(args..., OrderByOpts{})` returns the same term as `t.OrderBy(args...)`
and leaves the same allocator state, and the options handed to the builder are
empty; when the last element of `args` is not a `SliceOpts` value,
`t.Slice(args..., SliceOpts{})` returns the same as `t.Slice(args...)`, again with
empty options.  This holds for every choice of the helpers. -/
theorem empty_bundle_same_as_no_options (h : Helpers β) (t : Term) (args : List Value)
    (s : VarAlloc) :
    ((∀ index, args.getLast? ≠ some (Value.orderByOpts index)) →
      (t.OrderBy h (args ++ [Value.orderByOpts Value.nil]) s).term = (t.OrderBy h args s).term ∧
      (t.OrderBy h (args ++ [Value.orderByOpts Value.nil]) s).alloc =
        (t.OrderBy h args s).alloc ∧
      (t.OrderBy (recording h.funcWrap) (args ++ [Value.orderByOpts Value.nil]) s).term.optArgs
        = [] ∧
      (t.OrderBy (recording h.funcWrap) args s).term.optArgs = []) ∧
    ((∀ l r, args.getLast? ≠ some (Value.sliceOpts l r)) →
      t.Slice h (args ++ [Value.sliceOpts Value.nil Value.nil]) s = t.Slice h args s ∧
      (t.Slice (recording h.funcWrap) (args ++ [Value.sliceOpts Value.nil Value.nil]) s).1.optArgs
        = [] ∧
      (t.Slice (recording h.funcWrap) args s).1.optArgs = []) := by
  constructor
  · intro hlast
    rw [orderBy_of_last_opts, orderBy_of_last_opts, orderBy_of_last_other h t args s hlast,
      orderBy_of_last_other (recording h.funcWrap) t args s hlast]
    exact ⟨rfl, rfl, rfl, rfl⟩
  · intro hlast
    rw [slice_of_last_opts, slice_of_last_opts, slice_of_last_other h t args s hlast,
      slice_of_last_other (recording h.funcWrap) t args s hlast]
    exact ⟨rfl, rfl, rfl⟩

/-- Witness for C7 at `t.OrderBy(1, "name", OrderByOpts{})` and
`t.Slice(1, "name", SliceOpts{})`. -/
theorem empty_bundle_same_as_no_options_witness :
    [Value.num 1, Value.str "name"].getLast? = some (Value.str "name") ∧
    (Term.OrderBy (buildersWith (funcWrap identityCallables)) (Term.var 0)
        ([Value.num 1, Value.str "name"] ++ [Value.orderByOpts Value.nil]) 1).term =
      (Term.OrderBy (buildersWith (funcWrap identityCallables)) (Term.var 0)
        [Value.num 1, Value.str "name"] 1).term ∧
    Term.Slice (buildersWith (funcWrap identityCallables)) (Term.var 0)
        ([Value.num 1, Value.str "name"] ++ [Value.sliceOpts Value.nil Value.nil]) 1 =
      Term.Slice (buildersWith (funcWrap identityCallables)) (Term.var 0)
        [Value.num 1, Value.str "name"] 1 :=
  ⟨rfl,
    ((empty_bundle_same_as_no_options (buildersWith (funcWrap identityCallables))
      (Term.var 0) [Value.num 1, Value.str "name"] 1).1 (by simp)).1,
    ((empty_bundle_same_as_no_options (buildersWith (funcWrap identityCallables))
      (Term.var 0) [Value.num 1, Value.str "name"] 1).2 (by simp)).1⟩

/-! ## The index given as a plain mapping -/

/-- C8 (what the code does): when the last argument of `OrderBy` is a plain mapping
such as `map[string]interface{}{"index": "idx"}`, the options handed to the builder
are empty and the mapping is handed on as the last positional argument, replaced
by `funcWrap` of it; with the helpers of the specification the built node has no
options and one more child. -/
theorem orderBy_index_mapping_stays_positional (fw : Value → VarAlloc → Term × VarAlloc)
    (invoke : Nat → List Term → VarAlloc → Term × VarAlloc) (t : Term) (init : List Value)
    (m : List (String × Value)) (s : VarAlloc) :
    (t.OrderBy (recording fw) (init ++ [Value.map m]) s).term.optArgs = [] ∧
    (t.OrderBy (recording fw) (init ++ [Value.map m]) s).term.args.length = init.length + 1 ∧
    (t.OrderBy (recording fw) (init ++ [Value.map m]) s).term.args.getLast? =
      some (Value.term (fw (Value.map m) (orderByAllocAt fw (init ++ [Value.map m]) s
        init.length)).1) ∧
    (t.OrderBy (recording fw) [Value.str "name", Value.map [("index", Value.str "idx")]] s).term
      = ⟨some t, "OrderBy", .ORDERBY,
          [Value.term (fw (Value.str "name") s).1,
            Value.term (fw (Value.map [("index", Value.str "idx")])
              (fw (Value.str "name") s).2).1], []⟩ ∧
    (t.OrderBy (buildersWith (funcWrap invoke)) (init ++ [Value.map m]) s).term.optArgs = [] ∧
    (t.OrderBy (buildersWith (funcWrap invoke)) (init ++ [Value.map m]) s).term.args.length =
      init.length + 2 := by
  have hlast : ∀ index, (init ++ [Value.map m]).getLast? ≠ some (Value.orderByOpts index) := by
    intro index
    simp
  have hpos : (init ++ [Value.map m])[init.length]? = some (Value.map m) := by simp
  refine ⟨?_, ?_, ?_, ?_, ?_, ?_⟩
  · rw [orderBy_of_last_other _ _ _ _ hlast]
    rfl
  · rw [orderBy_of_last_other _ _ _ _ hlast]
    simp [recording, orderByLoop_length]
  · rw [orderBy_of_last_other _ _ _ _ hlast]
    simp only [recording]
    rw [List.getLast?_eq_getElem?, orderByLoop_length]
    simp only [List.length_append, List.length_singleton, Nat.add_sub_cancel]
    rw [orderByLoop_getElem? fw _ s _ _ hpos]
    simp [orderByEntry, isOrderMarker]
  · simp [Term.OrderBy, recording, orderByLoop, isOrderMarker]
  · rw [orderBy_of_last_other _ _ _ _ hlast]
    rfl
  · rw [orderBy_of_last_other _ _ _ _ hlast]
    simp [buildersWith, newRqlTermFromPrevVal, Term.args, orderByLoop_length]

/-! ## Only the final argument, only the own bundle type -/

/-- C9: when the last element of `args` is not an `OrderByOpts` value, `OrderBy`
hands the builder empty options and one positional argument per element of `args`
(the loop entry of each; with the `funcWrap` of the specification that is
`funcWrap` of each); when the last element is not a `SliceOpts` value, `Slice`
hands the builder empty options and `args` unchanged.  A bundle is not an ordering
marker, so the loop replaces it by `funcWrap` of it.  This covers the other
operation's bundle in last position, a pointer to the own bundle in last position
and a bundle at an earlier position.  When the last two elements are both bundles
of the operation's type, the final one becomes the options and the one before it
stays the last positional argument. -/
theorem options_only_from_final_own_bundle (fw : Value → VarAlloc → Term × VarAlloc)
    (invoke : Nat → List Term → VarAlloc → Term × VarAlloc) (t : Term)
    (args init : List Value) (i j l r l2 r2 x : Value) (s : VarAlloc) :
    ((∀ index, args.getLast? ≠ some (Value.orderByOpts index)) →
      (t.OrderBy (recording fw) args s).term.optArgs = [] ∧
      (t.OrderBy (recording fw) args s).term.args =
        args.mapIdx (fun k v => orderByEntry fw v (orderByAllocAt fw args s k)) ∧
      (t.OrderBy (recording (funcWrap invoke)) args s).term.args =
        (funcWrapArgs (funcWrap invoke) args s).1) ∧
    ((∀ lb rb, args.getLast? ≠ some (Value.sliceOpts lb rb)) →
      (t.Slice (recording fw) args s).1.optArgs = [] ∧
      (t.Slice (recording fw) args s).1.args = args) ∧
    (∀ s1, orderByEntry fw (Value.orderByOpts i) s1 = Value.term (fw (Value.orderByOpts i) s1).1 ∧
      orderByEntry fw (Value.sliceOpts l r) s1 = Value.term (fw (Value.sliceOpts l r) s1).1) ∧
    ((t.OrderBy (recording fw) (init ++ [Value.sliceOpts l r]) s).term.optArgs = [] ∧
      (t.OrderBy (recording fw) (init ++ [Value.sliceOpts l r]) s).term.args =
        (orderByLoop fw init s).1 ++
          [Value.term (fw (Value.sliceOpts l r) (orderByLoop fw init s).2).1]) ∧
    ((t.Slice (recording fw) (init ++ [Value.orderByOpts i]) s).1.optArgs = [] ∧
      (t.Slice (recording fw) (init ++ [Value.orderByOpts i]) s).1.args =
        init ++ [Value.orderByOpts i]) ∧
    ((t.OrderBy (recording fw) (init ++ [Value.ptr (Value.orderByOpts i)]) s).term.optArgs = [] ∧
      (t.OrderBy (recording fw) (init ++ [Value.ptr (Value.orderByOpts i)]) s).term.args =
        (orderByLoop fw init s).1 ++
          [Value.term (fw (Value.ptr (Value.orderByOpts i)) (orderByLoop fw init s).2).1]) ∧
    ((t.Slice (recording fw) (init ++ [Value.ptr (Value.sliceOpts l r)]) s).1.optArgs = [] ∧
      (t.Slice (recording fw) (init ++ [Value.ptr (Value.sliceOpts l r)]) s).1.args =
        init ++ [Value.ptr (Value.sliceOpts l r)]) ∧
    ((∀ index, x ≠ Value.orderByOpts index) →
      (t.OrderBy (recording fw) (Value.orderByOpts i :: (init ++ [x])) s).term.optArgs = [] ∧
      (t.OrderBy (recording fw) (Value.orderByOpts i :: (init ++ [x])) s).term.args.head? =
        some (Value.term (fw (Value.orderByOpts i) s).1)) ∧
    ((∀ lb rb, x ≠ Value.sliceOpts lb rb) →
      (t.Slice (recording fw) (Value.sliceOpts l r :: (init ++ [x])) s).1.optArgs = [] ∧
      (t.Slice (recording fw) (Value.sliceOpts l r :: (init ++ [x])) s).1.args =
        Value.sliceOpts l r :: (init ++ [x])) ∧
    ((t.OrderBy (recording fw) (init ++ [Value.orderByOpts i, Value.orderByOpts j]) s).term.optArgs
        = (OrderByOpts.mk j).toMap ∧
      (t.OrderBy (recording fw) (init ++ [Value.orderByOpts i, Value.orderByOpts j]) s).term.args
        = (orderByLoop fw init s).1 ++
          [Value.term (fw (Value.orderByOpts i) (orderByLoop fw init s).2).1]) ∧
    ((t.Slice (recording fw) (init ++ [Value.sliceOpts l r, Value.sliceOpts l2 r2]) s).1.optArgs
        = (SliceOpts.mk l2 r2).toMap ∧
      (t.Slice (recording fw) (init ++ [Value.sliceOpts l r, Value.sliceOpts l2 r2]) s).1.args
        = init ++ [Value.sliceOpts l r]) := by
  have hOS : ∀ index, (init ++ [Value.sliceOpts l r]).getLast? ≠
      some (Value.orderByOpts index) := by
    intro index
    simp
  have hSO : ∀ lb rb, (init ++ [Value.orderByOpts i]).getLast? ≠
      some (Value.sliceOpts lb rb) := by
    intro lb rb
    simp
  have hOO : init ++ [Value.orderByOpts i, Value.orderByOpts j] =
      (init ++ [Value.orderByOpts i]) ++ [Value.orderByOpts j] := by simp
  have hSS : init ++ [Value.sliceOpts l r, Value.sliceOpts l2 r2] =
      (init ++ [Value.sliceOpts l r]) ++ [Value.sliceOpts l2 r2] := by simp
  have hOP : ∀ index, (init ++ [Value.ptr (Value.orderByOpts i)]).getLast? ≠
      some (Value.orderByOpts index) := by
    intro index
    simp
  have hSP : ∀ lb rb, (init ++ [Value.ptr (Value.sliceOpts l r)]).getLast? ≠
      some (Value.sliceOpts lb rb) := by
    intro lb rb
    simp
  refine ⟨?_, ?_, ?_, ⟨?_, ?_⟩, ⟨?_, ?_⟩, ⟨?_, ?_⟩, ⟨?_, ?_⟩, ?_, ?_, ⟨?_, ?_⟩, ⟨?_, ?_⟩⟩
  · intro hlast
    refine ⟨?_, ?_, ?_⟩
    · rw [orderBy_of_last_other _ _ _ _ hlast]
      rfl
    · rw [orderBy_of_last_other _ _ _ _ hlast]
      exact orderByLoop_eq_mapIdx fw args s
    · rw [orderBy_of_last_other _ _ _ _ hlast]
      exact congrArg Prod.fst (orderByLoop_specFuncWrap invoke args s)
  · intro hlast
    rw [slice_of_last_other _ _ _ _ hlast]
    exact ⟨rfl, rfl⟩
  · intro s1
    exact ⟨rfl, rfl⟩
  · rw [orderBy_of_last_other _ _ _ _ hOS]
    rfl
  · rw [orderBy_of_last_other _ _ _ _ hOS]
    simp [recording, orderByLoop_append, orderByLoop, isOrderMarker]
  · rw [slice_of_last_other _ _ _ _ hSO]
    rfl
  · rw [slice_of_last_other _ _ _ _ hSO]
    rfl
  · rw [orderBy_of_last_other _ _ _ _ hOP]
    rfl
  · rw [orderBy_of_last_other _ _ _ _ hOP]
    simp [recording, orderByLoop_append, orderByLoop, isOrderMarker]
  · rw [slice_of_last_other _ _ _ _ hSP]
    rfl
  · rw [slice_of_last_other _ _ _ _ hSP]
    rfl
  · intro hx
    have hlast : ∀ index, (Value.orderByOpts i :: (init ++ [x])).getLast? ≠
        some (Value.orderByOpts index) := by
      intro index
      rw [← List.cons_append, List.getLast?_concat]
      intro heq
      exact hx index (Option.some.inj heq)
    rw [orderBy_of_last_other _ _ _ _ hlast]
    simp [recording, orderByLoop, isOrderMarker]
  · intro hx
    have hlast : ∀ lb rb, (Value.sliceOpts l r :: (init ++ [x])).getLast? ≠
        some (Value.sliceOpts lb rb) := by
      intro lb rb
      rw [← List.cons_append, List.getLast?_concat]
      intro heq
      exact hx lb rb (Option.some.inj heq)
    rw [slice_of_last_other _ _ _ _ hlast]
    exact ⟨rfl, rfl⟩
  · rw [hOO, orderBy_of_last_opts]
    rfl
  · rw [hOO, orderBy_of_last_opts]
    simp [recording, orderByLoop_append, orderByLoop, isOrderMarker]
  · rw [hSS, slice_of_last_opts]
    rfl
  · rw [hSS, slice_of_last_opts]
    rfl

/-- Witness for C9 at `t.OrderBy(OrderByOpts{Index: "idx"}, "name")` and
`t.Slice(1, OrderByOpts{Index: "idx"})`: the last element is not the operation's
own bundle, the options are empty and the bundle stays positional. -/
theorem options_only_from_final_own_bundle_witness :
    [Value.orderByOpts (Value.str "idx"), Value.str "name"].getLast? =
      some (Value.str "name") ∧
    (Term.OrderBy (recording (funcWrap identityCallables)) (Term.var 0)
      [Value.orderByOpts (Value.str "idx"), Value.str "name"] 1).term.optArgs = [] ∧
    [Value.num 1, Value.orderByOpts (Value.str "idx")].getLast? =
      some (Value.orderByOpts (Value.str "idx")) ∧
    (Term.Slice (recording (funcWrap identityCallables)) (Term.var 0)
      [Value.num 1, Value.orderByOpts (Value.str "idx")] 1).1.args =
        [Value.num 1, Value.orderByOpts (Value.str "idx")] ∧
    (Term.OrderBy (recording (funcWrap identityCallables)) (Term.var 0)
      (Value.orderByOpts (Value.str "idx") :: ([] ++ [Value.str "name"])) 1).term.args.head? =
        some (Value.term (Term.literal (Value.orderByOpts (Value.str "idx")))) ∧
    (Term.Slice (recording (funcWrap identityCallables)) (Term.var 0)
      (Value.sliceOpts Value.nil Value.nil :: ([] ++ [Value.num 2])) 1).1.optArgs = [] :=
  ⟨rfl,
    ((options_only_from_final_own_bundle (funcWrap identityCallables)
      identityCallables (Term.var 0) [Value.orderByOpts (Value.str "idx"), Value.str "name"]
      [] Value.nil Value.nil Value.nil Value.nil Value.nil Value.nil Value.nil 1).1
        (by simp)).1,
    rfl,
    ((options_only_from_final_own_bundle (funcWrap identityCallables)
      identityCallables (Term.var 0) [Value.num 1, Value.orderByOpts (Value.str "idx")]
      [] Value.nil Value.nil Value.nil Value.nil Value.nil Value.nil Value.nil 1).2.1
        (by simp)).2,
    ((options_only_from_final_own_bundle (funcWrap identityCallables)
      identityCallables (Term.var 0) [] [] (Value.str "idx") Value.nil Value.nil Value.nil
      Value.nil Value.nil (Value.str "name") 1).2.2.2.2.2.2.2.1 (by simp)).2,
    ((options_only_from_final_own_bundle (funcWrap identityCallables)
      identityCallables (Term.var 0) [] [] Value.nil Value.nil Value.nil Value.nil
      Value.nil Value.nil (Value.num 2) 1).2.2.2.2.2.2.2.2.1 (by simp)).1⟩

/-! ## The argument sequence after `OrderBy` -/

/-- C10: `OrderBy` writes into the argument sequence it is called on.  After the
call the sequence has the same length; it consists of the positional part, every
element of which is replaced by its loop entry, followed by what came after the
positional part (a final `OrderByOpts` value, if there was one).  So an element
that was a `Term` tagged `DESC` or `ASC` holds its original value, a final
`OrderByOpts` element holds its original value, and every other positional element
`v` at position `k` holds `funcWrap(v)`.  The sequence is not left unchanged in
general (`t.OrderBy("name")` overwrites the name), and the receiver is handed to
the builder as it is. -/
theorem orderBy_overwrites_argument_sequence (h : Helpers β) (t : Term) (args : List Value)
    (s : VarAlloc) :
    (t.OrderBy h args s).args.length = args.length ∧
    (t.OrderBy h args s).args =
      (orderByPositional args).mapIdx (fun k v =>
        orderByEntry h.funcWrap v (orderByAllocAt h.funcWrap (orderByPositional args) s k)) ++
        args.drop (orderByPositional args).length ∧
    (∀ (k : Nat) (d : Term), args[k]? = some (Value.term d) →
      (d.termType = .DESC ∨ d.termType = .ASC) →
      (t.OrderBy h args s).args[k]? = some (Value.term d)) ∧
    (∀ index, args.getLast? = some (Value.orderByOpts index) →
      (t.OrderBy h args s).args.getLast? = some (Value.orderByOpts index)) ∧
    (∀ (k : Nat) (v : Value), (orderByPositional args)[k]? = some v →
      (¬ ∃ d, v = Value.term d ∧ (d.termType = .DESC ∨ d.termType = .ASC)) →
      (t.OrderBy h args s).args[k]? =
        some (Value.term
          (h.funcWrap v (orderByAllocAt h.funcWrap (orderByPositional args) s k)).1)) ∧
    (∀ name, (t.OrderBy h [Value.str name] s).args ≠ [Value.str name]) ∧
    (t.OrderBy (recording h.funcWrap) args s).term.prevVal = some t := by
  have hclosed := orderBy_args_closed h t args s
  have hposLen : (orderByPositional args).length ≤ args.length := by
    unfold orderByPositional
    split <;> simp
  have hget : ∀ (k : Nat) (v : Value), (orderByPositional args)[k]? = some v →
      (t.OrderBy h args s).args[k]? = some (orderByEntry h.funcWrap v
        (orderByAllocAt h.funcWrap (orderByPositional args) s k)) := by
    intro k v hv
    have hk : k < (orderByPositional args).length := by
      by_contra hge
      have := List.getElem?_eq_none (Nat.le_of_not_lt hge)
      rw [this] at hv
      cases hv
    rw [hclosed, List.getElem?_append_left (by rw [orderByLoop_length]; exact hk)]
    exact orderByLoop_getElem? h.funcWrap _ s k v hv
  refine ⟨?_, ?_, ?_, ?_, ?_, ?_, ?_⟩
  · rw [hclosed]
    simp only [List.length_append, orderByLoop_length, List.length_drop]
    omega
  · rw [hclosed, orderByLoop_eq_mapIdx]
  · intro k d hk htag
    rw [hget k _ (orderByPositional_getElem?_term args k d hk)]
    have hm : isOrderMarker (Value.term d) = true :=
      (isOrderMarker_iff _).2 ⟨d, rfl, htag⟩
    simp [orderByEntry, hm]
  · intro index hidx
    have hsplit : args = args.dropLast ++ [Value.orderByOpts index] :=
      (List.dropLast_append_getLast? _ (by simp [hidx])).symm
    rw [hsplit, orderBy_of_last_opts, List.getLast?_concat]
  · intro k v hv hnot
    have hm : isOrderMarker v = false := by
      cases hb : isOrderMarker v with
      | false => rfl
      | true => exact absurd ((isOrderMarker_iff v).1 hb) hnot
    rw [hget k v hv]
    simp [orderByEntry, hm]
  · intro name hEq
    simp [Term.OrderBy, orderByLoop, isOrderMarker] at hEq
  · unfold Term.OrderBy
    split <;> rfl

/-- Witness for C10 at `t.OrderBy(Desc("age"), "name", OrderByOpts{Index: "idx"})`:
the marker at position 0 and the final bundle are kept, the name at position 1 is
overwritten. -/
theorem orderBy_overwrites_argument_sequence_witness :
    (Term.OrderBy (buildersWith (funcWrap identityCallables)) (Term.var 0)
        [Value.term (Desc (buildersWith (funcWrap identityCallables)) [Value.str "age"] 0).1,
          Value.str "name", Value.orderByOpts (Value.str "idx")] 1).args[0]? =
      some (Value.term (Desc (buildersWith (funcWrap identityCallables)) [Value.str "age"] 0).1) ∧
    (Term.OrderBy (buildersWith (funcWrap identityCallables)) (Term.var 0)
        [Value.term (Desc (buildersWith (funcWrap identityCallables)) [Value.str "age"] 0).1,
          Value.str "name", Value.orderByOpts (Value.str "idx")] 1).args.getLast? =
      some (Value.orderByOpts (Value.str "idx")) ∧
    (Term.OrderBy (buildersWith (funcWrap identityCallables)) (Term.var 0)
        [Value.term (Desc (buildersWith (funcWrap identityCallables)) [Value.str "age"] 0).1,
          Value.str "name", Value.orderByOpts (Value.str "idx")] 1).args[1]? =
      some (Value.term (Term.func [1] (Term.op "Field" false .GET_FIELD
        [Term.var 1, Term.literal (Value.str "name")] []))) :=
  ⟨(orderBy_overwrites_argument_sequence (buildersWith (funcWrap identityCallables))
      (Term.var 0)
      [Value.term (Desc (buildersWith (funcWrap identityCallables)) [Value.str "age"] 0).1,
        Value.str "name", Value.orderByOpts (Value.str "idx")] 1).2.2.1 0 _ rfl (Or.inl rfl),
    (orderBy_overwrites_argument_sequence (buildersWith (funcWrap identityCallables))
      (Term.var 0)
      [Value.term (Desc (buildersWith (funcWrap identityCallables)) [Value.str "age"] 0).1,
        Value.str "name", Value.orderByOpts (Value.str "idx")] 1).2.2.2.1 _ rfl,
    (orderBy_overwrites_argument_sequence (buildersWith (funcWrap identityCallables))
      (Term.var 0)
      [Value.term (Desc (buildersWith (funcWrap identityCallables)) [Value.str "age"] 0).1,
        Value.str "name", Value.orderByOpts (Value.str "idx")] 1).2.2.2.2.1 1 (Value.str "name")
        rfl (by simp)⟩

end Gorethink
